import Mathlib

/-!
# MiniGoogle-DSA: formal model of the search-engine core

Shallow embedding of the C++ sources of the MiniGoogle-DSA repository:

* `backend/cpp/barrels_binary.cpp` — the JSON barrel partitioner
  (`JSONBarrelCreator`), the binary barrel codec (`BinaryBarrelConverter`,
  `findPostingsBinary`), the semantic query engine (`expandQuery`,
  `semanticSearch`, `findSimilarWords`, `getAutocompleteSuggestions`,
  `getLemmaIdForWord`, `calculateTFIDF`);
* `backend/cpp/forwardIndex.cpp` — `Lexicon::getLemmaID`;
* the optimized multi-word search driver — `processMultiWordQuery`,
  `calculateTFIDF`.

Machine integers are modelled as `Nat` with explicit range hypotheses where
the 32-bit width matters; C++ `double` scores are modelled as real numbers
for the scoring formula itself and as rationals (an exact stand-in for the
ordered-field operations the control flow uses) inside the query pipeline.
In-memory hash maps (`std::unordered_map`) appear either as lookup
functions `α → Option β` or as association lists when iteration order
matters; where the claims are about result sets, the final `std::sort`
(which only permutes the filtered records) is not modelled.
-/

namespace MiniGoogle

/-! ## Barrel partitioning (JSONBarrelCreator::createFromInvertedIndex) -/

/-- Barrel assignment from `JSONBarrelCreator::createFromInvertedIndex`
(barrels_binary.cpp): `df > 10000` goes to the hot barrel 0; otherwise
`df > 1000` goes to warm barrels `1 + lemmaId % 6`; otherwise to cold
barrels `7 + lemmaId % 3`. -/
def assignBarrel (lemmaId df : ℕ) : ℕ :=
  if 10000 < df then 0
  else if 1000 < df then 1 + lemmaId % 6
  else 7 + lemmaId % 3

/-! ## Lexicon lookup (getLemmaIdForWord, Lexicon::getLemmaID) -/

/-- Lemma resolution from `getLemmaIdForWord` (barrels_binary.cpp): look up
the word-ID; if the word-ID has no lemma mapping, fall back to the word-ID
itself.  Returns `none` exactly when the word is not in the lexicon. -/
def getLemmaIdForWord (wordToWordId : String → Option Int)
    (wordIdToLemmaId : Int → Option Int) (word : String) : Option Int :=
  match wordToWordId word with
  | none => none
  | some wordId =>
    match wordIdToLemmaId wordId with
    | some lemmaId => some lemmaId
    | none => some wordId

/-- Lemma resolution from `Lexicon::getLemmaID` (forwardIndex.cpp): returns
`-1` for unknown words, otherwise the mapped lemma-ID, falling back to the
word-ID when the word-ID has no lemma mapping. -/
def lexiconGetLemmaID (wordToID : String → Option Int)
    (wordIDToLemmaID : Int → Option Int) (word : String) : Int :=
  match wordToID word with
  | none => -1
  | some wordID =>
    match wordIDToLemmaID wordID with
    | some l => l
    | none => wordID

/-! ## Per-term scoring (calculateTFIDF) and the BM25 reference formula -/

/-- Per-term score from `calculateTFIDF` (identical in barrels_binary.cpp
and in the multi-word search driver): zero when `tf` or `df` is zero,
otherwise `(1 + log10 tf) * log10 (totalDocs / df)`. -/
noncomputable def calculateTFIDF (tf df totalDocs : ℕ) : ℝ :=
  if tf = 0 ∨ df = 0 then 0
  else (1 + Real.logb 10 tf) * Real.logb 10 ((totalDocs : ℝ) / (df : ℝ))

/-- The spec's BM25 formula, transcribed from §4.I of the specification
with `k1 = 1.5` and `b = 0.75` inlined:
`idf · tf·(k1+1) / (tf + k1·(1 − b + b·docLen/avgDocLen))` with
`idf = ln((N − df + 0.5)/(df + 0.5) + 1)`. -/
noncomputable def bm25_spec (tf df totalDocs : ℕ) (docLen avgDocLen : ℝ) : ℝ :=
  Real.log (((totalDocs : ℝ) - (df : ℝ) + 0.5) / ((df : ℝ) + 0.5) + 1) *
    ((tf : ℝ) * (1.5 + 1)) / ((tf : ℝ) + 1.5 * (1 - 0.75 + 0.75 * docLen / avgDocLen))

/-! ## Binary barrel lookup with delta merge (findPostingsBinary) -/

/-- A posting as decoded by the serving path: document-ID (already trimmed
of null padding) and term frequency.  The C++ struct also carries a `score`
field that is always `0.0` until scoring; it is omitted here. -/
structure DocPosting where
  docId : String
  tf : ℕ
deriving DecidableEq, Repr

/-- A decoded posting block: the stored `df` field and the `numDocs`
postings that follow it. -/
structure PostingBlock where
  df : ℕ
  postings : List DocPosting
deriving DecidableEq, Repr

/-- The serving-time barrel state: the `barrel_lookup.json` map
`lemma-ID → barrel-ID`, and for each barrel the composition of its offset
map with the seek-and-decode read of `barrel_K.bin` (`none` when the lemma
is absent from the offset map or the `.bin` file cannot be opened).
Barrel 10 is the `new_docs` delta barrel. -/
structure BarrelStore where
  barrelLookup : Int → Option ℕ
  blocks : ℕ → Int → Option PostingBlock

/-- One step of the delta-barrel union loop in `findPostingsBinary`
(barrels_binary.cpp): a delta posting whose document-ID already occurs in
`existing` (the primary document-IDs) is skipped; otherwise it is appended
and the running df incremented. -/
def mergeStep (existing : List String) (acc : List DocPosting × ℕ)
    (p : DocPosting) : List DocPosting × ℕ :=
  if p.docId ∈ existing then acc else (acc.1 ++ [p], acc.2 + 1)

/-- The delta-barrel union from `findPostingsBinary` (barrels_binary.cpp):
document-IDs already present in the primary list are collected first, then
each delta posting is merged by `mergeStep`. -/
def mergeDelta (primary : List DocPosting) (df : ℕ) (delta : List DocPosting) :
    List DocPosting × ℕ :=
  delta.foldl (mergeStep (primary.map DocPosting.docId)) (primary, df)

/-- `findPostingsBinary` (barrels_binary.cpp, serving path): consult the
lookup table, then the primary barrel's block; when the primary barrel is
not the delta barrel itself, additionally consult barrel 10 for the same
lemma and union its postings into the result. -/
def findPostingsBinary (s : BarrelStore) (lemmaId : Int) :
    Option (List DocPosting × ℕ) :=
  match s.barrelLookup lemmaId with
  | none => none
  | some barrelId =>
    match s.blocks barrelId lemmaId with
    | none => none
    | some blk =>
      if barrelId ≠ 10 then
        match s.blocks 10 lemmaId with
        | some dblk => some (mergeDelta blk.postings blk.df dblk.postings)
        | none => some (blk.postings, blk.df)
      else some (blk.postings, blk.df)

/-- Well-formedness of a stored posting block, per the data model (§3): the
stored df equals the number of postings, document-IDs are unique, and the
posting list is non-empty. -/
def WfBlock (b : PostingBlock) : Prop :=
  b.df = b.postings.length ∧ (b.postings.map DocPosting.docId).Nodup ∧
    1 ≤ b.postings.length

instance (b : PostingBlock) : Decidable (WfBlock b) := by
  unfold WfBlock; infer_instance

/-- Invariant of the delta-merge fold: starting from an accumulator whose
count matches its length, whose document-IDs are unique, and each of whose
document-IDs is either a primary one or outside the remaining delta, the
fold preserves all three, and the list only grows. -/
theorem mergeDelta_go (existing : List String) :
    ∀ (delta acc : List DocPosting) (n : ℕ),
      n = acc.length →
      (acc.map DocPosting.docId).Nodup →
      (delta.map DocPosting.docId).Nodup →
      (∀ a ∈ acc.map DocPosting.docId, a ∈ existing ∨ a ∉ delta.map DocPosting.docId) →
      (delta.foldl (mergeStep existing) (acc, n)).2 =
          (delta.foldl (mergeStep existing) (acc, n)).1.length ∧
        ((delta.foldl (mergeStep existing) (acc, n)).1.map DocPosting.docId).Nodup ∧
        acc.length ≤ (delta.foldl (mergeStep existing) (acc, n)).1.length := by
  intro delta
  induction delta with
  | nil =>
    intro acc n hn hnd _ _
    simp only [List.foldl_nil]
    exact ⟨hn, hnd, le_refl _⟩
  | cons p rest ih =>
    intro acc n hn hnd hdnd hout
    have hdnd' : (rest.map DocPosting.docId).Nodup := by
      simp only [List.map_cons, List.nodup_cons] at hdnd
      exact hdnd.2
    have hpnotrest : p.docId ∉ rest.map DocPosting.docId := by
      simp only [List.map_cons, List.nodup_cons] at hdnd
      exact hdnd.1
    simp only [List.foldl_cons]
    by_cases hmem : p.docId ∈ existing
    · simp only [mergeStep, if_pos hmem]
      refine ih acc n hn hnd hdnd' ?_
      intro a ha
      rcases hout a ha with h | h
      · exact Or.inl h
      · refine Or.inr fun hc => h ?_
        simp only [List.map_cons, List.mem_cons]
        exact Or.inr hc
    · simp only [mergeStep, if_neg hmem]
      have hpnotacc : p.docId ∉ acc.map DocPosting.docId := by
        intro hc
        rcases hout _ hc with h | h
        · exact hmem h
        · exact h (by simp)
      have hnd' : ((acc ++ [p]).map DocPosting.docId).Nodup := by
        simp only [List.map_append, List.map_cons, List.map_nil]
        refine List.Nodup.append hnd (List.nodup_singleton _) ?_
        intro a ha hb
        simp only [List.mem_singleton] at hb
        exact hpnotacc (hb ▸ ha)
      have hout' : ∀ a ∈ (acc ++ [p]).map DocPosting.docId,
          a ∈ existing ∨ a ∉ rest.map DocPosting.docId := by
        intro a ha
        simp only [List.map_append, List.map_cons, List.map_nil,
          List.mem_append, List.mem_singleton] at ha
        rcases ha with ha | ha
        · rcases hout a ha with h | h
          · exact Or.inl h
          · refine Or.inr fun hc => h ?_
            simp only [List.map_cons, List.mem_cons]
            exact Or.inr hc
        · subst ha
          exact Or.inr hpnotrest
      have hrest := ih (acc ++ [p]) (n + 1) (by simp [hn]) hnd' hdnd' hout'
      refine ⟨hrest.1, hrest.2.1, le_trans ?_ hrest.2.2⟩
      simp

/-- C2: whenever the lookup succeeds on a well-formed store, the returned
df equals the length of the returned posting list, the list has no
duplicate document-IDs, and df is at least 1 — including after the
delta-barrel merge. -/
theorem findPostingsBinary_df_consistent (s : BarrelStore) (lemmaId : Int)
    (l : List DocPosting) (df : ℕ)
    (hwf : ∀ bid lid blk, s.blocks bid lid = some blk → WfBlock blk)
    (h : findPostingsBinary s lemmaId = some (l, df)) :
    df = l.length ∧ (l.map DocPosting.docId).Nodup ∧ 1 ≤ df := by
  unfold findPostingsBinary at h
  cases hlk : s.barrelLookup lemmaId with
  | none => rw [hlk] at h; exact absurd h (by simp)
  | some barrelId =>
    rw [hlk] at h
    dsimp only at h
    cases hbl : s.blocks barrelId lemmaId with
    | none => rw [hbl] at h; exact absurd h (by simp)
    | some blk =>
      rw [hbl] at h
      dsimp only at h
      obtain ⟨hdf, hnd, hlen⟩ := hwf _ _ _ hbl
      by_cases hb10 : barrelId ≠ 10
      · rw [if_pos hb10] at h
        cases hdl : s.blocks 10 lemmaId with
        | none =>
          rw [hdl] at h
          simp only [Option.some.injEq, Prod.mk.injEq] at h
          obtain ⟨h1, h2⟩ := h
          subst h1; subst h2
          exact ⟨hdf, hnd, by omega⟩
        | some dblk =>
          rw [hdl] at h
          simp only [Option.some.injEq] at h
          obtain ⟨hddf, hdnd, _⟩ := hwf _ _ _ hdl
          have hgo := mergeDelta_go (blk.postings.map DocPosting.docId)
            dblk.postings blk.postings blk.df hdf hnd hdnd
            (fun a ha => Or.inl ha)
          rw [mergeDelta, Prod.ext_iff] at h
          obtain ⟨hl, hdf2⟩ := h
          subst hl
          subst hdf2
          exact ⟨hgo.1, hgo.2.1, by omega⟩
      · rw [if_neg hb10] at h
        simp only [Option.some.injEq, Prod.mk.injEq] at h
        obtain ⟨h1, h2⟩ := h
        subst h1; subst h2
        exact ⟨hdf, hnd, by omega⟩

/-- A concrete two-barrel store used to witness the delta merge: the delta
barrel contributes one new posting and holds one duplicate of the primary. -/
def deltaStore : BarrelStore where
  barrelLookup := fun l => if l = 1 then some 0 else none
  blocks := fun bid lid =>
    if bid = 0 ∧ lid = 1 then some ⟨1, [⟨"A", 2⟩]⟩
    else if bid = 10 ∧ lid = 1 then some ⟨2, [⟨"A", 5⟩, ⟨"B", 1⟩]⟩
    else none

/-- Witness for C2: on `deltaStore` the lookup returns the merged list with
matching df. -/
theorem findPostingsBinary_df_consistent_witness :
    findPostingsBinary deltaStore 1 = some ([⟨"A", 2⟩, ⟨"B", 1⟩], 2) ∧
    (2 : ℕ) = [(⟨"A", 2⟩ : DocPosting), ⟨"B", 1⟩].length ∧
    ([(⟨"A", 2⟩ : DocPosting), ⟨"B", 1⟩].map DocPosting.docId).Nodup ∧
    (1 : ℕ) ≤ 2 := by
  have h : findPostingsBinary deltaStore 1 = some ([⟨"A", 2⟩, ⟨"B", 1⟩], 2) := by
    decide
  have hwf : ∀ bid lid blk, deltaStore.blocks bid lid = some blk → WfBlock blk := by
    intro bid lid blk hblk
    unfold deltaStore at hblk
    dsimp only at hblk
    split_ifs at hblk with h1 h2
    all_goals (injection hblk with he; subst he; decide)
  have hc := findPostingsBinary_df_consistent deltaStore 1 _ 2 hwf h
  exact ⟨h, hc.1, hc.2.1, hc.2.2⟩

/-! ## Binary barrel codec at byte level (BinaryBarrelConverter and the
binary reader in findPostingsBinary) -/

/-- Little-endian 4-byte encoding of a 32-bit integer, as produced by
`binFile.write` of an `int32_t`. -/
def bytes4 (n : ℕ) : List ℕ :=
  [n % 256, n / 256 % 256, n / 65536 % 256, n / 16777216 % 256]

/-- Read a little-endian 32-bit integer from the head of a byte stream. -/
def readBytes4 : List ℕ → Option (ℕ × List ℕ)
  | b0 :: b1 :: b2 :: b3 :: rest =>
    some (b0 + 256 * (b1 + 256 * (b2 + 256 * b3)), rest)
  | _ => none

/-- The fixed 20-byte document-ID field written by
`BinaryBarrelConverter::convertBarrel`: `memset` to zero, then `strncpy`
of at most `DOC_ID_SIZE - 1 = 19` bytes. -/
def padDocId (d : List ℕ) : List ℕ :=
  d.take 19 ++ List.replicate (20 - (d.take 19).length) 0

/-- A posting on disk: 20-byte padded document-ID, then the 4-byte tf. -/
def encodePosting (p : List ℕ × ℕ) : List ℕ := padDocId p.1 ++ bytes4 p.2

/-- A posting block before encoding: lemma-ID, stored df, and the postings
(document-ID bytes, term frequency). -/
structure BinBlock where
  lemmaId : ℕ
  df : ℕ
  postings : List (List ℕ × ℕ)
deriving DecidableEq, Repr

/-- The block layout written to `barrel_K.bin`:
`[lemmaId][df][numDocs]` then `numDocs` postings. -/
def encodeBlock (b : BinBlock) : List ℕ :=
  bytes4 b.lemmaId ++ bytes4 b.df ++ bytes4 b.postings.length ++
    (b.postings.map encodePosting).flatten

/-- The whole `.bin` file: concatenation of the blocks in write order. -/
def encodeBarrel (bs : List BinBlock) : List ℕ := (bs.map encodeBlock).flatten

/-- The `.idx` records `(lemma-ID, offset, length)`: the offset is
`binFile.tellp()` before the block, the length the bytes written for it. -/
def idxEntries : List BinBlock → ℕ → List (ℕ × ℕ × ℕ)
  | [], _ => []
  | b :: bs, off =>
    (b.lemmaId, off, (encodeBlock b).length) ::
      idxEntries bs (off + (encodeBlock b).length)

/-- Trim a document-ID buffer at the first null byte, as
`std::string(docIdBuf)` plus the explicit `find('\x00')` trim do. -/
def trimNulls : List ℕ → List ℕ
  | [] => []
  | b :: rest => if b = 0 then [] else b :: trimNulls rest

/-- Read one posting: 20-byte document-ID field (trimmed at the first null
byte) followed by the 4-byte term frequency. -/
def readPosting (bs : List ℕ) : Option ((List ℕ × ℕ) × List ℕ) :=
  if 20 ≤ bs.length then
    match readBytes4 (bs.drop 20) with
    | some (tf, rest) => some ((trimNulls (bs.take 20), tf), rest)
    | none => none
  else none

/-- Read `n` consecutive postings. -/
def readPostings : ℕ → List ℕ → Option (List (List ℕ × ℕ) × List ℕ)
  | 0, bs => some ([], bs)
  | n + 1, bs =>
    match readPosting bs with
    | none => none
    | some (p, rest) =>
      match readPostings n rest with
      | none => none
      | some (ps, rest2) => some (p :: ps, rest2)

/-- Read one block at the head of a stream: header
`[lemmaId][df][numDocs]` then `numDocs` postings; returns the decoded
fields and the remainder of the stream. -/
def readBlock (bs : List ℕ) : Option (ℕ × ℕ × List (List ℕ × ℕ) × List ℕ) :=
  match readBytes4 bs with
  | none => none
  | some (lemmaId, r1) =>
    match readBytes4 r1 with
    | none => none
    | some (df, r2) =>
      match readBytes4 r2 with
      | none => none
      | some (numDocs, r3) =>
        match readPostings numDocs r3 with
        | none => none
        | some (ps, rest) => some (lemmaId, df, ps, rest)

/-- A writable posting per the data model: document-ID of at most 19 bytes,
no null byte, byte values below 256, tf within int32 range. -/
def WfBinPosting (p : List ℕ × ℕ) : Prop :=
  p.1.length ≤ 19 ∧ (∀ b ∈ p.1, b ≠ 0 ∧ b < 256) ∧ p.2 < 2 ^ 31

/-- A writable block: all header fields within int32 range and every
posting writable. -/
def WfBinBlock (b : BinBlock) : Prop :=
  b.lemmaId < 2 ^ 31 ∧ b.df < 2 ^ 31 ∧ b.postings.length < 2 ^ 31 ∧
    ∀ p ∈ b.postings, WfBinPosting p

instance (p : List ℕ × ℕ) : Decidable (WfBinPosting p) := by
  unfold WfBinPosting; infer_instance

instance (b : BinBlock) : Decidable (WfBinBlock b) := by
  unfold WfBinBlock; infer_instance

theorem readBytes4_bytes4 (n : ℕ) (h : n < 2 ^ 32) (rest : List ℕ) :
    readBytes4 (bytes4 n ++ rest) = some (n, rest) := by
  simp only [bytes4, List.cons_append, List.nil_append, readBytes4]
  have he : n % 256 + 256 * (n / 256 % 256 + 256 * (n / 65536 % 256 +
      256 * (n / 16777216 % 256))) = n := by omega
  rw [he]

theorem padDocId_length (d : List ℕ) : (padDocId d).length = 20 := by
  have : (d.take 19).length ≤ 19 := by
    simp [List.length_take]
  simp only [padDocId, List.length_append, List.length_replicate]
  omega

theorem trimNulls_append_nz (d t : List ℕ) (hnz : ∀ b ∈ d, b ≠ 0) :
    trimNulls (d ++ t) = d ++ trimNulls t := by
  induction d with
  | nil => simp
  | cons a as ih =>
    simp only [List.cons_append, trimNulls, if_neg (hnz a (by simp))]
    exact congrArg (a :: ·) (ih fun b hb => hnz b (by simp [hb]))

theorem trimNulls_replicate_zero (k : ℕ) :
    trimNulls (List.replicate k 0) = [] := by
  cases k with
  | zero => rfl
  | succ m => simp [List.replicate, trimNulls]

theorem trimNulls_padDocId (d : List ℕ) (hlen : d.length ≤ 19)
    (hnz : ∀ b ∈ d, b ≠ 0) : trimNulls (padDocId d) = d := by
  unfold padDocId
  rw [List.take_of_length_le hlen, trimNulls_append_nz d _ hnz,
    trimNulls_replicate_zero]
  simp

theorem readPosting_encode (p : List ℕ × ℕ) (hwf : WfBinPosting p)
    (rest : List ℕ) :
    readPosting (encodePosting p ++ rest) = some ((p.1, p.2), rest) := by
  obtain ⟨hlen, hbyte, htf⟩ := hwf
  have hpadlen : (padDocId p.1).length = 20 := padDocId_length p.1
  unfold readPosting encodePosting
  rw [List.append_assoc]
  have h20 : 20 ≤ (padDocId p.1 ++ (bytes4 p.2 ++ rest)).length := by
    simp [hpadlen]
  rw [if_pos h20, List.take_left' hpadlen, List.drop_left' hpadlen,
    readBytes4_bytes4 p.2 (lt_trans htf (by norm_num)) rest,
    trimNulls_padDocId p.1 hlen fun b hb => (hbyte b hb).1]

theorem readPostings_encode (ps : List (List ℕ × ℕ))
    (hwf : ∀ p ∈ ps, WfBinPosting p) (rest : List ℕ) :
    readPostings ps.length ((ps.map encodePosting).flatten ++ rest) =
      some (ps, rest) := by
  induction ps with
  | nil => simp [readPostings]
  | cons p ps ih =>
    simp only [List.map_cons, List.flatten_cons, List.length_cons,
      List.append_assoc]
    rw [readPostings, readPosting_encode p (hwf p (by simp))]
    dsimp only
    rw [ih fun q hq => hwf q (by simp [hq])]

theorem readBlock_encode (b : BinBlock) (hwf : WfBinBlock b)
    (rest : List ℕ) :
    readBlock (encodeBlock b ++ rest) =
      some (b.lemmaId, b.df, b.postings, rest) := by
  obtain ⟨hl, hd, hn, hp⟩ := hwf
  unfold readBlock encodeBlock
  simp only [List.append_assoc]
  rw [readBytes4_bytes4 b.lemmaId (lt_trans hl (by norm_num))]
  dsimp only
  rw [readBytes4_bytes4 b.df (lt_trans hd (by norm_num))]
  dsimp only
  rw [readBytes4_bytes4 b.postings.length (lt_trans hn (by norm_num))]
  dsimp only
  rw [readPostings_encode b.postings hp rest]

theorem idxEntries_length (bs : List BinBlock) :
    ∀ off, (idxEntries bs off).length = bs.length := by
  induction bs with
  | nil => intro off; rfl
  | cons b bs ih => intro off; simp [idxEntries, ih]

/-- Generalized round trip: relative to an already-written byte prefix,
every idx entry of the remaining blocks points at exactly its own block. -/
theorem barrel_roundtrip_aux :
    ∀ (bs : List BinBlock) (pre : List ℕ),
      (∀ b ∈ bs, WfBinBlock b) →
      ∀ e ∈ idxEntries bs pre.length, ∃ b ∈ bs,
        e.1 = b.lemmaId ∧ e.2.2 = (encodeBlock b).length ∧
        readBlock ((pre ++ encodeBarrel bs).drop e.2.1) =
          some (b.lemmaId, b.df, b.postings,
            (pre ++ encodeBarrel bs).drop (e.2.1 + e.2.2)) := by
  intro bs
  induction bs with
  | nil => intro pre _ e he; exact absurd he (by simp [idxEntries])
  | cons b bs ih =>
    intro pre hwf e he
    have hbar : encodeBarrel (b :: bs) = encodeBlock b ++ encodeBarrel bs := by
      simp [encodeBarrel]
    rw [idxEntries] at he
    rcases List.mem_cons.mp he with he | he
    · refine ⟨b, by simp, ?_⟩
      subst he
      refine ⟨rfl, rfl, ?_⟩
      have hlen2 : (pre ++ encodeBlock b).length =
          pre.length + (encodeBlock b).length := by simp
      rw [hbar, ← List.append_assoc, List.drop_left' hlen2]
      have hdroppre : ((pre ++ encodeBlock b) ++ encodeBarrel bs).drop pre.length
          = encodeBlock b ++ encodeBarrel bs := by
        rw [List.append_assoc, List.drop_left]
      rw [hdroppre, readBlock_encode b (hwf b (by simp))]
    · have hpre2 : (pre ++ encodeBlock b).length =
          pre.length + (encodeBlock b).length := by simp
      have := ih (pre ++ encodeBlock b) (fun c hc => hwf c (by simp [hc]))
        e (by rw [hpre2]; exact he)
      obtain ⟨c, hc, h1, h2, h3⟩ := this
      refine ⟨c, by simp [hc], h1, h2, ?_⟩
      rw [hbar, ← List.append_assoc]
      exact h3

/-! ## Autocomplete (getAutocompleteSuggestions) -/

/-- An autocomplete entry: a phrase and its document frequency. -/
structure Suggestion where
  word : List Char
  df : ℕ
deriving DecidableEq, Repr

/-- Does `w` start with the pattern `pat`?  This is the
`s.word.find(lowered) == 0` test of the C++ code. -/
def hasPfx : List Char → List Char → Bool
  | [], _ => true
  | _ :: _, [] => false
  | a :: pat, b :: w => a == b && hasPfx pat w

/-- Phase 1 of `getAutocompleteSuggestions` (barrels_binary.cpp): scan the
3-char bucket in order, keep entries whose phrase starts with the lowered
query, and return as soon as `max` suggestions are collected. -/
def phase1 : List Suggestion → List Suggestion → List Char → ℕ → List Suggestion
  | [], acc, _, _ => acc
  | s :: rest, acc, lp, max =>
    if hasPfx lp s.word then
      let acc2 := acc ++ [s]
      if max ≤ acc2.length then acc2 else phase1 rest acc2 lp max
    else phase1 rest acc lp max

/-- Phase 2 of `getAutocompleteSuggestions`: scan the 2-char bucket with
the same filter, skipping any phrase already collected, stopping at
`max`. -/
def phase2 : List Suggestion → List Suggestion → List Char → ℕ → List Suggestion
  | [], acc, _, _ => acc
  | s :: rest, acc, lp, max =>
    if hasPfx lp s.word then
      if s.word ∈ acc.map Suggestion.word then phase2 rest acc lp max
      else
        let acc2 := acc ++ [s]
        if max ≤ acc2.length then acc2 else phase2 rest acc2 lp max
    else phase2 rest acc lp max

/-- Bucket lookup in the in-memory autocomplete index. -/
def lookupBucket (index : List (List Char × List Suggestion)) (k : List Char) :
    Option (List Suggestion) :=
  (index.find? (fun b => b.1 == k)).map Prod.snd

/-- `getAutocompleteSuggestions` (barrels_binary.cpp): lower the query,
consult the 3-char bucket when the query has at least 3 characters, then
fall back to the 2-char bucket while fewer than `max` suggestions were
collected. -/
def getAutocompleteSuggestions (index : List (List Char × List Suggestion))
    (loaded : Bool) (p : List Char) (max : ℕ) : List Suggestion :=
  if ¬loaded ∨ p = [] then []
  else
    let lp := p.map Char.toLower
    let s1 :=
      if 3 ≤ lp.length then
        match lookupBucket index (lp.take 3) with
        | some entries => phase1 entries [] lp max
        | none => []
      else []
    if max ≤ s1.length then s1
    else if 2 ≤ lp.length then
      match lookupBucket index (lp.take 2) with
      | some entries => phase2 entries s1 lp max
      | none => s1
    else s1

/-- The claim's description of the fallback phase, over an already filtered
bucket: append entries not yet collected (dedup by phrase equality),
stopping at `max`. -/
def fillDedup (max : ℕ) : List Suggestion → List Suggestion → List Suggestion
  | acc, [] => acc
  | acc, s :: rest =>
    if s.word ∈ acc.map Suggestion.word then fillDedup max acc rest
    else
      let acc2 := acc ++ [s]
      if max ≤ acc2.length then acc2 else fillDedup max acc2 rest

theorem phase1_eq_take (lp : List Char) (max : ℕ) :
    ∀ (entries : List Suggestion) (acc : List Suggestion),
      acc.length < max →
      phase1 entries acc lp max =
        acc ++ (entries.filter (fun s => hasPfx lp s.word)).take
          (max - acc.length) := by
  intro entries
  induction entries with
  | nil => intro acc _; simp [phase1]
  | cons s rest ih =>
    intro acc hlt
    by_cases hp : hasPfx lp s.word
    · simp only [phase1, if_pos hp, List.filter_cons, hp, if_pos]
      by_cases hfull : max ≤ (acc ++ [s]).length
      · rw [if_pos hfull]
        have hone : max - acc.length = 1 := by
          simp at hfull; omega
        simp [hone]
      · rw [if_neg hfull]
        have hlt2 : (acc ++ [s]).length < max := by
          simp at hfull ⊢; omega
        rw [ih (acc ++ [s]) hlt2]
        have hstep : max - acc.length = (max - (acc ++ [s]).length) + 1 := by
          simp; omega
        rw [hstep, List.take_succ_cons, List.append_assoc]
        rfl
    · simp only [phase1, if_neg hp, List.filter_cons]
      rw [ih acc hlt]

theorem phase2_eq_fillDedup (lp : List Char) (max : ℕ) :
    ∀ (entries : List Suggestion) (acc : List Suggestion),
      phase2 entries acc lp max =
        fillDedup max acc (entries.filter (fun s => hasPfx lp s.word)) := by
  intro entries
  induction entries with
  | nil => intro acc; simp [phase2, fillDedup]
  | cons s rest ih =>
    intro acc
    by_cases hp : hasPfx lp s.word
    · simp only [phase2, if_pos hp, List.filter_cons, hp, if_pos, fillDedup]
      by_cases hdup : s.word ∈ acc.map Suggestion.word
      · rw [if_pos hdup, if_pos hdup, ih acc]
      · rw [if_neg hdup, if_neg hdup]
        by_cases hfull : max ≤ (acc ++ [s]).length
        · rw [if_pos hfull, if_pos hfull]
        · rw [if_neg hfull, if_neg hfull, ih (acc ++ [s])]
    · simp only [phase2, if_neg hp, List.filter_cons]
      rw [ih acc]

theorem fillDedup_length (max : ℕ) :
    ∀ (l acc : List Suggestion), acc.length < max →
      (fillDedup max acc l).length ≤ max := by
  intro l
  induction l with
  | nil => intro acc hlt; simp [fillDedup]; omega
  | cons s rest ih =>
    intro acc hlt
    simp only [fillDedup]
    by_cases hdup : s.word ∈ acc.map Suggestion.word
    · rw [if_pos hdup]; exact ih acc hlt
    · rw [if_neg hdup]
      by_cases hfull : max ≤ (acc ++ [s]).length
      · rw [if_pos hfull]
        simp at hfull ⊢
        omega
      · rw [if_neg hfull]
        refine ih (acc ++ [s]) ?_
        simp at hfull ⊢
        omega

/-! ## Semantic query pipeline (expandQuery / semanticSearch) -/

/-- A semantic neighbour as produced by `findSimilarWords`: surface word,
similarity, and resolved lemma-ID (`-1` when unresolvable). -/
structure SimilarWord where
  word : String
  similarity : ℚ
  lemmaId : Int
deriving DecidableEq, Repr

/-- A query term after expansion: originals carry weight 1, semantic
expansions weight `similarity * 0.5`. -/
structure ExpandedTerm where
  word : String
  lemmaId : Int
  weight : ℚ
deriving DecidableEq, Repr

/-- The read-only serving state the query engine consults: lemma
resolution (`getLemmaIdForWord`), merged posting lookup
(`findPostingsBinary`: postings plus df, `none` on any per-term failure),
semantic neighbours (`findSimilarWords`; empty when embeddings are not
loaded), and the document authority map (`getDocScore`). -/
structure SearchEnv where
  lexicon : String → Option Int
  findPostings : Int → Option (List DocPosting × ℕ)
  similar : String → List SimilarWord
  docScore : String → ℚ

/-- One word of `expandQuery` (barrels_binary.cpp): push the word's own
lemma at weight 1 unless its lemma was already seen, then each similar
word with `lemmaId ≥ 0` and similarity above 0.5, at weight
`similarity * 0.5`, again skipping seen lemmas. -/
def expandStep (env : SearchEnv) (st : List ExpandedTerm × List Int)
    (word : String) : List ExpandedTerm × List Int :=
  let st1 :=
    match env.lexicon word with
    | some l => if l ∈ st.2 then st else (st.1 ++ [⟨word, l, 1⟩], st.2 ++ [l])
    | none => st
  (env.similar word).foldl
    (fun st2 sim =>
      if 0 ≤ sim.lemmaId ∧ (1 : ℚ) / 2 < sim.similarity ∧ sim.lemmaId ∉ st2.2 then
        (st2.1 ++ [⟨sim.word, sim.lemmaId, sim.similarity * (1 / 2)⟩],
          st2.2 ++ [sim.lemmaId])
      else st2) st1

/-- `expandQuery` (barrels_binary.cpp): fold `expandStep` over the query
words starting from no terms and no seen lemmas. -/
def expandQuery (env : SearchEnv) (queryWords : List String) :
    List ExpandedTerm :=
  (queryWords.foldl (expandStep env) ([], [])).1

/-- The per-document accumulator record of `semanticSearch`. -/
structure SearchRecord where
  docId : String
  totalScore : ℚ
  tfidfScore : ℚ
  semanticScore : ℚ
  pagerankScore : ℚ
  matchedTerms : ℕ
  totalTerms : ℕ
deriving DecidableEq, Repr

/-- The value-initialized record `docResults[docId]` starts from. -/
def emptyRecord : SearchRecord := ⟨"", 0, 0, 0, 0, 0, 0⟩

/-- The per-posting update of `semanticSearch`: initialize the record the
first time the document is seen (`result.docId.empty()`), add the weighted
per-term score, attribute weight-below-1 contributions to the semantic
score, and count weight-1 matches.  The per-term score function `sc`
(`calculateTFIDF` in the code) is a parameter: the claims below do not
depend on its values. -/
def scorePosting (env : SearchEnv) (sc : ℕ → ℕ → ℚ) (n : ℕ) (weight : ℚ)
    (df : ℕ) (p : DocPosting) (r : SearchRecord) : SearchRecord :=
  let r :=
    if r.docId = "" then
      { r with docId := p.docId, tfidfScore := 0, semanticScore := 0,
               pagerankScore := env.docScore p.docId, matchedTerms := 0,
               totalTerms := n }
    else r
  let tfidf := sc p.tf df
  let r := { r with tfidfScore := r.tfidfScore + tfidf * weight }
  let r := if weight < 1 then
      { r with semanticScore := r.semanticScore + tfidf * weight }
    else r
  if 1 ≤ weight then { r with matchedTerms := r.matchedTerms + 1 } else r

/-- `unordered_map::operator[]` followed by an in-place update, on an
association list keyed by document-ID. -/
def mapUpdate : List (String × SearchRecord) → String →
    (SearchRecord → SearchRecord) → List (String × SearchRecord)
  | [], k, f => [(k, f emptyRecord)]
  | (k2, r) :: rest, k, f =>
    if k2 = k then (k2, f r) :: rest else (k2, r) :: mapUpdate rest k f

/-- Score one expanded term: fetch its merged posting list (skipping the
term entirely on failure) and update each posting's document record. -/
def accumulateTerm (env : SearchEnv) (sc : ℕ → ℕ → ℚ) (n : ℕ)
    (m : List (String × SearchRecord)) (t : ExpandedTerm) :
    List (String × SearchRecord) :=
  match env.findPostings t.lemmaId with
  | none => m
  | some (postings, df) =>
    postings.foldl
      (fun m p => mapUpdate m p.docId (scorePosting env sc n t.weight df p)) m

/-- The full accumulation loop of `semanticSearch` over all expanded
terms. -/
def accumulate (env : SearchEnv) (sc : ℕ → ℕ → ℚ) (n : ℕ)
    (ts : List ExpandedTerm) : List (String × SearchRecord) :=
  ts.foldl (accumulateTerm env sc n) []

inductive QueryMode
  | andMode
  | orMode
deriving DecidableEq, Repr

/-- `requiredTerms` of `semanticSearch`: the full original query word count
in AND mode (not just the words that have a lemma), 1 in OR mode. -/
def requiredTerms (mode : QueryMode) (originalTermCount : ℕ) : ℕ :=
  match mode with
  | .andMode => originalTermCount
  | .orMode => 1

/-- The mode filter and final score combination of `semanticSearch`
(barrels_binary.cpp) with weights 0.5 / 0.3 / 0.2.  The concluding
`std::sort` only permutes these records and is not modelled; the claims
below are about the result set. -/
def semanticSearchRecords (env : SearchEnv) (sc : ℕ → ℕ → ℚ)
    (queryWords : List String) (mode : QueryMode) : List SearchRecord :=
  let n := queryWords.length
  let m := accumulate env sc n (expandQuery env queryWords)
  ((m.map Prod.snd).filter
      (fun r => requiredTerms mode n ≤ r.matchedTerms)).map
    (fun r => { r with totalScore :=
        (1 / 2 : ℚ) * r.tfidfScore + (3 / 10) * r.semanticScore +
          (1 / 5) * r.pagerankScore })

/-- The set (as a list) of document-IDs a search returns. -/
def semanticSearchDocs (env : SearchEnv) (sc : ℕ → ℕ → ℚ)
    (queryWords : List String) (mode : QueryMode) : List String :=
  (semanticSearchRecords env sc queryWords mode).map SearchRecord.docId

/-- Membership in the returned document set, characterized by the
accumulated records: a document is returned exactly when some accumulated
record carries it and meets the mode's matched-terms threshold. -/
theorem mem_semanticSearchDocs (env : SearchEnv) (sc : ℕ → ℕ → ℚ)
    (qw : List String) (mode : QueryMode) (d : String) :
    d ∈ semanticSearchDocs env sc qw mode ↔
      ∃ e ∈ accumulate env sc qw.length (expandQuery env qw),
        requiredTerms mode qw.length ≤ e.2.matchedTerms ∧ e.2.docId = d := by
  unfold semanticSearchDocs semanticSearchRecords
  simp only [List.mem_map, List.mem_filter, decide_eq_true_eq]
  constructor
  · rintro ⟨x, ⟨r2, ⟨⟨e, hem, rfl⟩, hp⟩, rfl⟩, hd⟩
    exact ⟨e, hem, hp, hd⟩
  · rintro ⟨e, hem, hp, hd⟩
    exact ⟨_, ⟨e.2, ⟨⟨e, hem, rfl⟩, hp⟩, rfl⟩, hd⟩

/-- The matched-terms count recorded for key `k` (0 when the document has
no record yet). -/
def matchedOf (m : List (String × SearchRecord)) (k : String) : ℕ :=
  match m.find? (fun e => e.1 = k) with
  | some e => e.2.matchedTerms
  | none => 0

/-- A term of weight below 1 never increases a record's matched count: a
fresh record gets 0, an existing one is unchanged (or reset by the
empty-document-ID re-initialization, which only decreases it). -/
theorem scorePosting_matched_le (env : SearchEnv) (sc : ℕ → ℕ → ℚ) (n : ℕ)
    (w : ℚ) (df : ℕ) (p : DocPosting) (hw : w < 1) (r : SearchRecord) :
    (scorePosting env sc n w df p r).matchedTerms ≤ r.matchedTerms := by
  unfold scorePosting
  dsimp only
  rw [if_neg (not_le.mpr hw)]
  by_cases hid : r.docId = "" <;> split_ifs <;> simp [hid]

theorem matchedOf_nil (k2 : String) : matchedOf [] k2 = 0 := rfl

theorem matchedOf_cons (k1 : String) (r : SearchRecord)
    (rest : List (String × SearchRecord)) (k2 : String) :
    matchedOf ((k1, r) :: rest) k2 =
      if k1 = k2 then r.matchedTerms else matchedOf rest k2 := by
  by_cases h : k1 = k2
  · simp [matchedOf, List.find?, h]
  · simp [matchedOf, List.find?, h]

theorem matchedOf_mapUpdate_le (k k2 : String)
    (f : SearchRecord → SearchRecord)
    (hf : ∀ r, (f r).matchedTerms ≤ r.matchedTerms) :
    ∀ m : List (String × SearchRecord),
      matchedOf (mapUpdate m k f) k2 ≤ matchedOf m k2 := by
  intro m
  induction m with
  | nil =>
    simp only [mapUpdate, matchedOf_cons, matchedOf_nil]
    by_cases hk : k = k2
    · rw [if_pos hk]
      have h0 := hf emptyRecord
      simpa [emptyRecord] using h0
    · rw [if_neg hk]
  | cons e rest ih =>
    obtain ⟨k1, r⟩ := e
    simp only [mapUpdate]
    by_cases hk1 : k1 = k
    · rw [if_pos hk1, matchedOf_cons, matchedOf_cons]
      by_cases hk2 : k1 = k2
      · rw [if_pos hk2, if_pos hk2]
        exact hf r
      · rw [if_neg hk2, if_neg hk2]
    · rw [if_neg hk1, matchedOf_cons, matchedOf_cons]
      by_cases hk2 : k1 = k2
      · rw [if_pos hk2, if_pos hk2]
      · rw [if_neg hk2, if_neg hk2]
        exact ih

/-! ## Failure-isolation lemmas for the query pipeline -/

/-- Query expansion does not consult the posting store. -/
theorem expandQuery_update_postings (env : SearchEnv)
    (f : Int → Option (List DocPosting × ℕ)) (qw : List String) :
    expandQuery { env with findPostings := f } qw = expandQuery env qw := by
  unfold expandQuery
  suffices h : ∀ st, qw.foldl (expandStep { env with findPostings := f }) st =
      qw.foldl (expandStep env) st by
    rw [h]
  intro st
  induction qw generalizing st with
  | nil => rfl
  | cons w ws ih =>
    simp only [List.foldl_cons]
    exact ih (expandStep env st w)

/-- The serving state in which the failing posting lookup for lemma `L` is
replaced by an empty posting list with df `d0`. -/
def overridePostings (env : SearchEnv) (L : Int) (d0 : ℕ) : SearchEnv :=
  { env with findPostings := fun l =>
      if l = L then some ([], d0) else env.findPostings l }

/-- Scoring one term consults the store once; replacing a failing lookup by
an empty posting list does not change the accumulator. -/
theorem accumulateTerm_update_postings (env : SearchEnv) (sc : ℕ → ℕ → ℚ)
    (n : ℕ) (L : Int) (d0 : ℕ) (hL : env.findPostings L = none)
    (m : List (String × SearchRecord)) (t : ExpandedTerm) :
    accumulateTerm (overridePostings env L d0) sc n m t =
      accumulateTerm env sc n m t := by
  unfold accumulateTerm
  by_cases ht : t.lemmaId = L
  · have h1 : (overridePostings env L d0).findPostings t.lemmaId =
        some ([], d0) := by
      simp [overridePostings, ht]
    have h2 : env.findPostings t.lemmaId = none := ht ▸ hL
    rw [h1, h2]
    rfl
  · have h1 : (overridePostings env L d0).findPostings t.lemmaId =
        env.findPostings t.lemmaId := by
      simp [overridePostings, ht]
    rw [h1]
    cases env.findPostings t.lemmaId with
    | none => rfl
    | some pr => rfl

/-- A whole-pipeline consequence: a lemma whose posting lookup fails
behaves exactly like one with an empty posting list. -/
theorem semanticSearchRecords_update_postings (env : SearchEnv)
    (sc : ℕ → ℕ → ℚ) (qw : List String) (mode : QueryMode) (L : Int)
    (d0 : ℕ) (hL : env.findPostings L = none) :
    semanticSearchRecords (overridePostings env L d0) sc qw mode =
      semanticSearchRecords env sc qw mode := by
  unfold semanticSearchRecords accumulate
  dsimp only
  rw [show expandQuery (overridePostings env L d0) qw = expandQuery env qw from
    expandQuery_update_postings env _ qw]
  have h : ∀ (ts : List ExpandedTerm) (m : List (String × SearchRecord)),
      ts.foldl (accumulateTerm (overridePostings env L d0) sc qw.length) m =
      ts.foldl (accumulateTerm env sc qw.length) m := by
    intro ts
    induction ts with
    | nil => intro m; rfl
    | cons t ts ih =>
      intro m
      simp only [List.foldl_cons]
      rw [accumulateTerm_update_postings env sc qw.length L d0 hL m t, ih]
  rw [h]

/-- A query word that is neither in the lexicon nor in the embedding
vocabulary contributes nothing to query expansion. -/
theorem expandStep_skip (env : SearchEnv) (st : List ExpandedTerm × List Int)
    (w : String) (hl : env.lexicon w = none) (hs : env.similar w = []) :
    expandStep env st w = st := by
  unfold expandStep
  rw [hl, hs]
  rfl

theorem expandQuery_skip (env : SearchEnv) (ws1 ws2 : List String)
    (w : String) (hl : env.lexicon w = none) (hs : env.similar w = []) :
    expandQuery env (ws1 ++ w :: ws2) = expandQuery env (ws1 ++ ws2) := by
  unfold expandQuery
  rw [List.foldl_append, List.foldl_append, List.foldl_cons,
    expandStep_skip env _ w hl hs]

/-- The projection of an accumulator map that the mode filter and the
result's document list depend on: key, record document-ID, record matched
count. -/
def proj3 (m : List (String × SearchRecord)) : List (String × String × ℕ) :=
  m.map (fun e => (e.1, e.2.docId, e.2.matchedTerms))

theorem scorePosting_proj (env : SearchEnv) (sc : ℕ → ℕ → ℚ) (n n2 : ℕ)
    (w : ℚ) (df : ℕ) (p : DocPosting) (r r2 : SearchRecord)
    (hd : r.docId = r2.docId) (hm : r.matchedTerms = r2.matchedTerms) :
    (scorePosting env sc n w df p r).docId =
        (scorePosting env sc n2 w df p r2).docId ∧
      (scorePosting env sc n w df p r).matchedTerms =
        (scorePosting env sc n2 w df p r2).matchedTerms := by
  unfold scorePosting
  dsimp only
  rw [hd]
  by_cases hid : r2.docId = "" <;> split_ifs <;> simp [hid, hm, hd]

theorem mapUpdate_proj (k : String) (f f2 : SearchRecord → SearchRecord)
    (hf : ∀ r r2 : SearchRecord, r.docId = r2.docId →
      r.matchedTerms = r2.matchedTerms →
      (f r).docId = (f2 r2).docId ∧ (f r).matchedTerms = (f2 r2).matchedTerms) :
    ∀ m m2 : List (String × SearchRecord), proj3 m = proj3 m2 →
      proj3 (mapUpdate m k f) = proj3 (mapUpdate m2 k f2) := by
  intro m
  induction m with
  | nil =>
    intro m2 h
    cases m2 with
    | nil =>
      obtain ⟨h1, h2⟩ := hf emptyRecord emptyRecord rfl rfl
      simp [mapUpdate, proj3, h1, h2]
    | cons e2 rest2 => exact absurd h (by simp [proj3])
  | cons e rest ih =>
    intro m2 h
    cases m2 with
    | nil => exact absurd h (by simp [proj3])
    | cons e2 rest2 =>
      simp only [proj3, List.map_cons, List.cons.injEq, Prod.mk.injEq] at h
      obtain ⟨⟨hk, hdd, hmm⟩, hrest⟩ := h
      obtain ⟨k1, r⟩ := e
      obtain ⟨k1b, r2⟩ := e2
      dsimp only at hk hdd hmm
      subst hk
      simp only [mapUpdate]
      by_cases hk1 : k1 = k
      · rw [if_pos hk1, if_pos hk1]
        obtain ⟨h1, h2⟩ := hf r r2 hdd hmm
        simp only [proj3, List.map_cons]
        rw [h1, h2]
        exact congrArg (List.cons _) hrest
      · rw [if_neg hk1, if_neg hk1]
        simp only [proj3, List.map_cons]
        rw [hdd, hmm]
        exact congrArg (List.cons _) (ih rest2 hrest)

theorem accumulateTerm_proj (env : SearchEnv) (sc : ℕ → ℕ → ℚ) (n n2 : ℕ)
    (t : ExpandedTerm) :
    ∀ m m2 : List (String × SearchRecord), proj3 m = proj3 m2 →
      proj3 (accumulateTerm env sc n m t) =
        proj3 (accumulateTerm env sc n2 m2 t) := by
  intro m m2 h
  unfold accumulateTerm
  cases env.findPostings t.lemmaId with
  | none => exact h
  | some pr =>
    obtain ⟨ps, df⟩ := pr
    dsimp only
    induction ps generalizing m m2 with
    | nil => exact h
    | cons p ps ih =>
      simp only [List.foldl_cons]
      exact ih _ _ (mapUpdate_proj p.docId _ _
        (fun r r2 hd hm => scorePosting_proj env sc n n2 t.weight df p r r2 hd hm)
        m m2 h)

theorem accumulate_proj (env : SearchEnv) (sc : ℕ → ℕ → ℚ) (n n2 : ℕ) :
    ∀ (ts : List ExpandedTerm) (m m2 : List (String × SearchRecord)),
      proj3 m = proj3 m2 →
      proj3 (ts.foldl (accumulateTerm env sc n) m) =
        proj3 (ts.foldl (accumulateTerm env sc n2) m2) := by
  intro ts
  induction ts with
  | nil => intro m m2 h; exact h
  | cons t ts ih =>
    intro m m2 h
    simp only [List.foldl_cons]
    exact ih _ _ (accumulateTerm_proj env sc n n2 t m m2 h)

/-- The document-ID list a search returns is a function of the accumulator
projection alone. -/
theorem docs_of_proj (req : ℕ) :
    ∀ m m2 : List (String × SearchRecord), proj3 m = proj3 m2 →
      (((m.map Prod.snd).filter
          (fun r => req ≤ r.matchedTerms)).map SearchRecord.docId) =
      (((m2.map Prod.snd).filter
          (fun r => req ≤ r.matchedTerms)).map SearchRecord.docId) := by
  intro m
  induction m with
  | nil =>
    intro m2 h
    cases m2 with
    | nil => rfl
    | cons e2 rest2 => exact absurd h (by simp [proj3])
  | cons e rest ih =>
    intro m2 h
    cases m2 with
    | nil => exact absurd h (by simp [proj3])
    | cons e2 rest2 =>
      simp only [proj3, List.map_cons, List.cons.injEq, Prod.mk.injEq] at h
      obtain ⟨⟨hk, hdd, hmm⟩, hrest⟩ := h
      simp only [List.map_cons, List.filter_cons, hmm]
      by_cases hreq : req ≤ e2.2.matchedTerms
      · rw [if_pos (by simpa using hreq), if_pos (by simpa using hreq)]
        simp only [List.map_cons, hdd]
        exact congrArg (e2.2.docId :: ·) (ih rest2 (by simpa [proj3] using hrest))
      · rw [if_neg (by simpa using hreq), if_neg (by simpa using hreq)]
        exact ih rest2 (by simpa [proj3] using hrest)

/-- The returned document list of a search, restated through the filter on
the raw accumulator (the final total-score rewrite keeps document-IDs). -/
theorem semanticSearchDocs_eq_filter (env : SearchEnv) (sc : ℕ → ℕ → ℚ)
    (qw : List String) (mode : QueryMode) :
    semanticSearchDocs env sc qw mode =
      (((accumulate env sc qw.length (expandQuery env qw)).map
          Prod.snd).filter
        (fun r => requiredTerms mode qw.length ≤ r.matchedTerms)).map
        SearchRecord.docId := by
  unfold semanticSearchDocs semanticSearchRecords
  rw [List.map_map]
  rfl

/-! ## Embedding similarity search (findSimilarWords) -/

/-- Exact dot product of two vectors (the `cosineSimilarity` of the code,
whose vectors are L2-normalized at build time). -/
def dot (a b : List ℚ) : ℚ := (List.zipWith (· * ·) a b).sum

/-- The order used by the C++ bounded min-heap
`priority_queue<pair<float,string>, vector<...>, greater<...>>`:
lexicographic on (similarity, word). -/
def simLe (a b : ℚ × String) : Prop :=
  a.1 < b.1 ∨ (a.1 = b.1 ∧ a.2 ≤ b.2)

instance : DecidableRel simLe := fun a b => by
  unfold simLe; infer_instance

instance : IsTotal (ℚ × String) simLe where
  total a b := by
    rcases lt_trichotomy a.1 b.1 with h | h | h
    · exact Or.inl (Or.inl h)
    · rcases le_total a.2 b.2 with hw | hw
      · exact Or.inl (Or.inr ⟨h, hw⟩)
      · exact Or.inr (Or.inr ⟨h.symm, hw⟩)
    · exact Or.inr (Or.inl h)

instance : IsTrans (ℚ × String) simLe where
  trans a b c hab hbc := by
    rcases hab with h1 | ⟨h1, h1w⟩ <;> rcases hbc with h2 | ⟨h2, h2w⟩
    · exact Or.inl (lt_trans h1 h2)
    · exact Or.inl (lt_of_lt_of_le h1 (le_of_eq h2))
    · exact Or.inl (lt_of_le_of_lt (le_of_eq h1) h2)
    · exact Or.inr ⟨h1.trans h2, le_trans h1w h2w⟩

theorem simLe_fst_le {a b : ℚ × String} (h : simLe a b) : a.1 ≤ b.1 := by
  rcases h with h | ⟨h, _⟩
  · exact le_of_lt h
  · exact le_of_eq h

/-- One candidate offered to the bounded min-heap of `findSimilarWords`:
push below capacity; at capacity, replace the minimum only when the new
similarity is strictly greater.  The heap is modelled by its ascending
sorted element list. -/
def heapStep (k : ℕ) (pq : List (ℚ × String)) (c : ℚ × String) :
    List (ℚ × String) :=
  if pq.length < k then pq.orderedInsert simLe c
  else
    match pq with
    | [] => []
    | top :: rest =>
      if top.1 < c.1 then rest.orderedInsert simLe c else top :: rest

/-- The candidate stream of `findSimilarWords`: every vocabulary entry in
map-traversal order except the query word itself, with its dot-product
similarity. -/
def simCandidates (vocab : List (String × ℕ)) (emb : ℕ → List ℚ)
    (word : String) (qv : List ℚ) : List (ℚ × String) :=
  vocab.filterMap (fun wi =>
    if wi.1 = word then none else some (dot qv (emb wi.2), wi.1))

/-- The lemma-ID attached to each similar word: word-ID then lemma-ID,
`-1` when either map misses (no word-ID fallback here, unlike
`getLemmaIdForWord`). -/
def similarLemmaId (w2id : String → Option Int) (id2l : Int → Option Int)
    (w : String) : Int :=
  match w2id w with
  | none => -1
  | some wid => (id2l wid).getD (-1)

/-- `findSimilarWords` (barrels_binary.cpp): empty when the query word is
not in the embedding vocabulary; otherwise a bounded min-heap pass over
all candidates, popped in ascending order and reversed to descending. -/
def findSimilarWords (vocab : List (String × ℕ)) (emb : ℕ → List ℚ)
    (w2id : String → Option Int) (id2l : Int → Option Int)
    (word : String) (k : ℕ) : List SimilarWord :=
  match (vocab.find? (fun wi => wi.1 = word)).map Prod.snd with
  | none => []
  | some qidx =>
    let pq := (simCandidates vocab emb word (emb qidx)).foldl (heapStep k) []
    pq.reverse.map (fun c => ⟨c.2, c.1, similarLemmaId w2id id2l c.2⟩)

/-- The heap-pass invariant: the queue is sorted ascending, holds
`min k |done|` elements all drawn from the processed candidates, and any
processed candidate outside the queue arrived when the queue was full and
its similarity is at most every queued similarity. -/
def HeapInv (k : ℕ) (done pq : List (ℚ × String)) : Prop :=
  pq.Sorted simLe ∧ pq.length = min k done.length ∧ (∀ p ∈ pq, p ∈ done) ∧
    ∀ c ∈ done, c ∉ pq → pq.length = k ∧ ∀ p ∈ pq, c.1 ≤ p.1

theorem heapStep_inv (k : ℕ) (done pq : List (ℚ × String))
    (c : ℚ × String) (h : HeapInv k done pq) :
    HeapInv k (done ++ [c]) (heapStep k pq c) := by
  obtain ⟨hs, hlen, hmem, hout⟩ := h
  unfold heapStep
  by_cases hlt : pq.length < k
  · rw [if_pos hlt]
    have hdlt : done.length < k := by
      rcases Nat.lt_or_ge done.length k with h | h
      · exact h
      · rw [min_eq_left h] at hlen; omega
    refine ⟨hs.orderedInsert c pq, ?_, ?_, ?_⟩
    · rw [List.orderedInsert_length]
      have h1 : min k done.length = done.length := min_eq_right (le_of_lt hdlt)
      have h2 : min k (done ++ [c]).length = (done ++ [c]).length :=
        min_eq_right (by simp; omega)
      simp only [List.length_append, List.length_cons, List.length_nil] at h2 ⊢
      omega
    · intro p hp
      rcases (List.mem_orderedInsert _).mp hp with rfl | hp
      · exact List.mem_append_right _ (by simp)
      · exact List.mem_append_left _ (hmem p hp)
    · intro c2 hc2 hc2n
      exfalso
      rcases List.mem_append.mp hc2 with hc2 | hc2
      · by_cases hcp : c2 ∈ pq
        · exact hc2n ((List.mem_orderedInsert _).mpr (Or.inr hcp))
        · have := (hout c2 hc2 hcp).1; omega
      · simp only [List.mem_singleton] at hc2
        subst hc2
        exact hc2n ((List.mem_orderedInsert _).mpr (Or.inl rfl))
  · rw [if_neg hlt]
    rcases pq with _ | ⟨top, rest⟩
    · have hk : k = 0 := by simp at hlt; omega
      refine ⟨List.sorted_nil, by simp [hk], by simp, ?_⟩
      intro c2 _ _
      exact ⟨by simp [hk], by simp⟩
    · have hlenk : (top :: rest).length = k := by
        have h1 := Nat.min_le_left k done.length
        omega
      have hkdone : k ≤ done.length := by
        by_contra hcon
        push_neg at hcon
        rw [min_eq_right (le_of_lt hcon)] at hlen
        omega
      have hminnew : min k (done.length + 1) = k := min_eq_left (by omega)
      have htoprest : ∀ p ∈ rest, simLe top p := List.rel_of_sorted_cons hs
      simp only [List.length_cons] at hlenk
      dsimp only
      by_cases hrepl : top.1 < c.1
      · rw [if_pos hrepl]
        have hsrest : rest.Sorted simLe := hs.of_cons
        refine ⟨hsrest.orderedInsert c rest, ?_, ?_, ?_⟩
        · rw [List.orderedInsert_length]
          simp only [List.length_append, List.length_cons, List.length_nil]
          omega
        · intro p hp
          rcases (List.mem_orderedInsert _).mp hp with rfl | hp
          · exact List.mem_append_right _ (by simp)
          · exact List.mem_append_left _ (hmem p (List.mem_cons_of_mem _ hp))
        · intro c2 hc2 hc2n
          constructor
          · rw [List.orderedInsert_length]
            omega
          · intro p hp
            rcases List.mem_append.mp hc2 with hc2 | hc2
            · by_cases hcold : c2 ∈ top :: rest
              · have hc2top : c2 = top := by
                  rcases List.mem_cons.mp hcold with h | h
                  · exact h
                  · exact absurd ((List.mem_orderedInsert _).mpr (Or.inr h)) hc2n
                subst hc2top
                rcases (List.mem_orderedInsert _).mp hp with rfl | hp
                · exact le_of_lt hrepl
                · exact simLe_fst_le (htoprest p hp)
              · have hb := (hout c2 hc2 hcold).2
                rcases (List.mem_orderedInsert _).mp hp with rfl | hp
                · exact le_trans (hb top (by simp)) (le_of_lt hrepl)
                · exact hb p (List.mem_cons_of_mem _ hp)
            · simp only [List.mem_singleton] at hc2
              subst hc2
              exact absurd ((List.mem_orderedInsert _).mpr (Or.inl rfl)) hc2n
      · rw [if_neg hrepl]
        refine ⟨hs, ?_, fun p hp => List.mem_append_left _ (hmem p hp), ?_⟩
        · simp only [List.length_append, List.length_cons, List.length_nil]
          omega
        · intro c2 hc2 hc2n
          rcases List.mem_append.mp hc2 with hc2 | hc2
          · refine ⟨by simp; omega, (hout c2 hc2 hc2n).2⟩
          · simp only [List.mem_singleton] at hc2
            subst hc2
            refine ⟨by simp; omega, ?_⟩
            intro p hp
            have hcle : c2.1 ≤ top.1 := not_lt.mp hrepl
            rcases List.mem_cons.mp hp with rfl | hp
            · exact hcle
            · exact le_trans hcle (simLe_fst_le (htoprest p hp))

theorem heapFold_inv (k : ℕ) :
    ∀ (cands done pq : List (ℚ × String)), HeapInv k done pq →
      HeapInv k (done ++ cands) (cands.foldl (heapStep k) pq) := by
  intro cands
  induction cands with
  | nil => intro done pq h; simpa using h
  | cons c cs ih =>
    intro done pq h
    simp only [List.foldl_cons]
    have h2 := ih (done ++ [c]) (heapStep k pq c) (heapStep_inv k done pq c h)
    simpa [List.append_assoc] using h2

/-! ## Claim theorems (first batch) -/

/-- C6: the barrel partitioner assigns each lemma to exactly one primary
barrel: barrel 0 when `df > 10000`; barrel `1 + lemmaId % 6` when
`1000 < df ≤ 10000`; barrel `7 + lemmaId % 3` when `df ≤ 1000`.  In
particular `df = 10000` lands in a warm barrel (1..6), not barrel 0, and
`df = 1000` in a cold barrel (7..9). -/
theorem assignBarrel_partitions (lemmaId df : ℕ) :
    (10000 < df → assignBarrel lemmaId df = 0) ∧
    (1000 < df → df ≤ 10000 → assignBarrel lemmaId df = 1 + lemmaId % 6) ∧
    (df ≤ 1000 → assignBarrel lemmaId df = 7 + lemmaId % 3) ∧
    (df = 10000 → 1 ≤ assignBarrel lemmaId df ∧ assignBarrel lemmaId df ≤ 6) ∧
    (df = 1000 → 7 ≤ assignBarrel lemmaId df ∧ assignBarrel lemmaId df ≤ 9) := by
  unfold assignBarrel
  have h6 : lemmaId % 6 < 6 := Nat.mod_lt _ (by omega)
  have h3 : lemmaId % 3 < 3 := Nat.mod_lt _ (by omega)
  refine ⟨?_, ?_, ?_, ?_, ?_⟩ <;> intros <;> split_ifs <;> omega

/-- Witness for C6 at concrete inputs, including both threshold boundaries. -/
theorem assignBarrel_partitions_witness :
    assignBarrel 5 10001 = 0 ∧
    assignBarrel 5 10000 = 1 + 5 % 6 ∧
    assignBarrel 5 1000 = 7 + 5 % 3 :=
  ⟨(assignBarrel_partitions 5 10001).1 (by decide),
   (assignBarrel_partitions 5 10000).2.1 (by decide) (by decide),
   (assignBarrel_partitions 5 1000).2.2.1 (by decide)⟩

/-- C10: a word present in the word-to-word-ID map whose word-ID has no
entry in the word-ID-to-lemma-ID map still resolves: both lookup paths
return the word-ID itself as the lemma-ID and never report the word as
unknown. -/
theorem lemma_resolution_fallback (w2id : String → Option Int)
    (id2l : Int → Option Int) (w : String) (wid : Int)
    (hw : w2id w = some wid) (hnol : id2l wid = none) :
    getLemmaIdForWord w2id id2l w = some wid ∧
    lexiconGetLemmaID w2id id2l w = wid := by
  simp [getLemmaIdForWord, lexiconGetLemmaID, hw, hnol]

/-- Witness for C10 on a concrete one-word lexicon with an empty lemma map. -/
theorem lemma_resolution_fallback_witness :
    getLemmaIdForWord (fun w => if w = "covid" then some 7 else none)
      (fun _ => none) "covid" = some 7 ∧
    lexiconGetLemmaID (fun w => if w = "covid" then some 7 else none)
      (fun _ => none) "covid" = 7 :=
  lemma_resolution_fallback _ _ "covid" 7 (by simp) rfl

/-- C1 (code bug): the per-term score the query engine actually computes is
the plain TF-IDF `(1 + log10 tf) * log10 (N/df)`, not the BM25 formula the
spec requires.  At `tf = 1`, `df = N = 59000` (with `docLen = avgDocLen`)
the code returns `0` while BM25 is strictly positive. -/
theorem calculateTFIDF_is_not_bm25 :
    calculateTFIDF 1 59000 59000 = 0 ∧ 0 < bm25_spec 1 59000 59000 1 1 := by
  constructor
  · unfold calculateTFIDF
    norm_num [Real.logb_one]
  · unfold bm25_spec
    apply div_pos
    · apply mul_pos
      · apply Real.log_pos
        norm_num
      · norm_num
    · norm_num

/-- C3: writing a barrel's posting lists to the `.bin`/`.idx` pair and
reading back through the offset index reproduces the exact posting set:
there is one idx entry per block, each entry `(L, off, len)` decodes at
`off` to exactly one block whose first field equals `L` and which ends
exactly `len` bytes later, and every document-ID (at most 19 bytes, no
embedded null) and term frequency is recovered unchanged, the null padding
being trimmed on read. -/
theorem barrel_roundtrip (bs : List BinBlock) (hwf : ∀ b ∈ bs, WfBinBlock b) :
    (idxEntries bs 0).length = bs.length ∧
    ∀ e ∈ idxEntries bs 0, ∃ b ∈ bs,
      e.1 = b.lemmaId ∧ e.2.2 = (encodeBlock b).length ∧
      readBlock ((encodeBarrel bs).drop e.2.1) =
        some (b.lemmaId, b.df, b.postings,
          (encodeBarrel bs).drop (e.2.1 + e.2.2)) := by
  refine ⟨idxEntries_length bs 0, ?_⟩
  intro e he
  have h := barrel_roundtrip_aux bs [] hwf e (by simpa using he)
  simpa using h

/-- A concrete two-block barrel used to witness the codec round trip. -/
def rtBarrel : List BinBlock := [⟨1, 1, [([65], 2)]⟩, ⟨2, 1, [([66, 67], 1)]⟩]

/-- Witness for C3: the round trip holds at the second idx entry of
`rtBarrel`. -/
theorem barrel_roundtrip_witness :
    ∃ b ∈ rtBarrel,
      ((2, 36, 36) : ℕ × ℕ × ℕ).1 = b.lemmaId ∧
      ((2, 36, 36) : ℕ × ℕ × ℕ).2.2 = (encodeBlock b).length ∧
      readBlock ((encodeBarrel rtBarrel).drop ((2, 36, 36) : ℕ × ℕ × ℕ).2.1) =
        some (b.lemmaId, b.df, b.postings,
          (encodeBarrel rtBarrel).drop
            (((2, 36, 36) : ℕ × ℕ × ℕ).2.1 + ((2, 36, 36) : ℕ × ℕ × ℕ).2.2)) :=
  (barrel_roundtrip rtBarrel (by decide)).2 (2, 36, 36) (by decide)

/-- C7: for a query of length at least 3 (and a positive cap `max`), the
autocomplete result is exactly: the 3-char bucket filtered to entries
starting with the lowered query, truncated to `max`, in bucket order; and,
when that falls short of `max`, the 2-char bucket with the same filter
appended with phrase-equality deduplication up to `max`.  At most `max`
suggestions are returned. -/
theorem autocomplete_buckets (index : List (List Char × List Suggestion))
    (p : List Char) (max : ℕ) (h3 : 3 ≤ p.length) (hmax : 1 ≤ max) :
    getAutocompleteSuggestions index true p max =
      (let lp := p.map Char.toLower
       let s1 := (((lookupBucket index (lp.take 3)).getD []).filter
           (fun s => hasPfx lp s.word)).take max
       if max ≤ s1.length then s1
       else fillDedup max s1 (((lookupBucket index (lp.take 2)).getD []).filter
           (fun s => hasPfx lp s.word))) ∧
    (getAutocompleteSuggestions index true p max).length ≤ max := by
  have hpne : ¬(¬true ∨ p = []) := by
    simp only [not_true, false_or]
    intro h
    rw [h] at h3
    simp at h3
  have hlp3 : 3 ≤ (p.map Char.toLower).length := by
    rw [List.length_map]; exact h3
  have hlp2 : 2 ≤ (p.map Char.toLower).length := le_trans (by omega) hlp3
  unfold getAutocompleteSuggestions
  rw [if_neg hpne]
  dsimp only
  rw [if_pos hlp3]
  have hmain : (match lookupBucket index ((p.map Char.toLower).take 3) with
      | some entries => phase1 entries [] (p.map Char.toLower) max
      | none => []) =
      (((lookupBucket index ((p.map Char.toLower).take 3)).getD []).filter
        (fun s => hasPfx (p.map Char.toLower) s.word)).take max := by
    cases hb : lookupBucket index ((p.map Char.toLower).take 3) with
    | none => simp
    | some entries =>
      simp only [Option.getD_some]
      rw [phase1_eq_take (p.map Char.toLower) max entries [] (by simpa using hmax)]
      simp
  rw [hmain]
  set s1 := (((lookupBucket index ((p.map Char.toLower).take 3)).getD []).filter
      (fun s => hasPfx (p.map Char.toLower) s.word)).take max with hs1
  by_cases hfull : max ≤ s1.length
  · rw [if_pos hfull, if_pos hfull]
    refine ⟨rfl, ?_⟩
    rw [hs1]
    simp
  · rw [if_neg hfull, if_neg hfull, if_pos hlp2]
    have hs1lt : s1.length < max := by omega
    have h2 : (match lookupBucket index ((p.map Char.toLower).take 2) with
        | some entries => phase2 entries s1 (p.map Char.toLower) max
        | none => s1) =
        fillDedup max s1 (((lookupBucket index ((p.map Char.toLower).take 2)).getD
          []).filter (fun s => hasPfx (p.map Char.toLower) s.word)) := by
      cases hb : lookupBucket index ((p.map Char.toLower).take 2) with
      | none => simp [fillDedup]
      | some entries =>
        simp only [Option.getD_some]
        exact phase2_eq_fillDedup (p.map Char.toLower) max entries s1
    rw [h2]
    exact ⟨rfl, fillDedup_length max _ s1 hs1lt⟩

/-- Concrete autocomplete index used to witness C7. -/
def acIndex : List (List Char × List Suggestion) :=
  [(['c', 'o', 'v'], [⟨['c', 'o', 'v', 'i', 'd'], 10⟩]),
   (['c', 'o'], [⟨['c', 'o', 'v', 'e', 'r'], 9⟩, ⟨['c', 'o', 'v', 'i', 'd'], 8⟩])]

/-- Witness for C7: the query "cov" collects "covid" from the 3-char bucket
and then "cover" from the 2-char bucket, deduplicating "covid". -/
theorem autocomplete_buckets_witness :
    getAutocompleteSuggestions acIndex true ['c', 'o', 'v'] 5 =
      (let lp := ['c', 'o', 'v'].map Char.toLower
       let s1 := (((lookupBucket acIndex (lp.take 3)).getD []).filter
           (fun s => hasPfx lp s.word)).take 5
       if 5 ≤ s1.length then s1
       else fillDedup 5 s1 (((lookupBucket acIndex (lp.take 2)).getD []).filter
           (fun s => hasPfx lp s.word))) ∧
    (getAutocompleteSuggestions acIndex true ['c', 'o', 'v'] 5).length ≤ 5 :=
  autocomplete_buckets acIndex ['c', 'o', 'v'] 5 (by decide) (by decide)

/-- A concrete serving state: one lexicon word "covid" with lemma 1 whose
posting list holds document "A"; no semantic neighbours. -/
def qEnv : SearchEnv where
  lexicon := fun w => if w = "covid" then some 1 else none
  findPostings := fun l => if l = 1 then some ([⟨"A", 3⟩], 1) else none
  similar := fun _ => []
  docScore := fun _ => 0

/-- A trivial per-term scoring function for concrete evaluations. -/
def zeroScore : ℕ → ℕ → ℚ := fun _ _ => 0

/-- C4 counterexample: on the query `["covid", "zzz"]` the second word has
no lemma, so the number of original terms with a lemma is 1 and document
"A" accumulates matched-terms 1; the claim would keep "A" in AND mode, but
`semanticSearch` requires matched ≥ 2 (the full query length) and drops
it. -/
theorem modeFilter_and_counterexample :
    ((["covid", "zzz"].filter (fun w => (qEnv.lexicon w).isSome)).length = 1) ∧
    (∃ e ∈ accumulate qEnv zeroScore 2 (expandQuery qEnv ["covid", "zzz"]),
      e.2.docId = "A" ∧ e.2.matchedTerms = 1) ∧
    "A" ∉ semanticSearchDocs qEnv zeroScore ["covid", "zzz"]
      QueryMode.andMode := by
  refine ⟨by decide, by decide, by decide⟩

/-- C4 (amended): the mode filter keeps a document in AND mode exactly when
its matched-original-terms count reaches the full original query word
count — all query words, with multiplicity, whether or not they have a
lemma — not merely the count of words with a lemma; OR mode keeps it
exactly when at least one original term matched; and a term of weight
below 1 (a semantic expansion) never increases any document's
matched-terms count. -/
theorem modeFilter_amended (env : SearchEnv) (sc : ℕ → ℕ → ℚ)
    (qw : List String) :
    (∀ d, d ∈ semanticSearchDocs env sc qw QueryMode.andMode ↔
      ∃ e ∈ accumulate env sc qw.length (expandQuery env qw),
        qw.length ≤ e.2.matchedTerms ∧ e.2.docId = d) ∧
    (∀ d, d ∈ semanticSearchDocs env sc qw QueryMode.orMode ↔
      ∃ e ∈ accumulate env sc qw.length (expandQuery env qw),
        1 ≤ e.2.matchedTerms ∧ e.2.docId = d) ∧
    (∀ (t : ExpandedTerm) (m : List (String × SearchRecord)) (k : String),
      t.weight < 1 →
      matchedOf (accumulateTerm env sc qw.length m t) k ≤ matchedOf m k) := by
  refine ⟨fun d => mem_semanticSearchDocs env sc qw QueryMode.andMode d,
    fun d => mem_semanticSearchDocs env sc qw QueryMode.orMode d, ?_⟩
  intro t m k hw
  unfold accumulateTerm
  cases hfp : env.findPostings t.lemmaId with
  | none => exact le_refl _
  | some pr =>
    obtain ⟨ps, df⟩ := pr
    clear hfp
    induction ps generalizing m with
    | nil => exact le_refl _
    | cons p ps ih =>
      simp only [List.foldl_cons]
      exact le_trans (ih (mapUpdate m p.docId (scorePosting env sc qw.length
          t.weight df p)))
        (matchedOf_mapUpdate_le p.docId k _
          (scorePosting_matched_le env sc qw.length t.weight df p hw) m)

/-- Witness for C4 (amended), applied on `qEnv`: a weight-0.4 expansion
term leaves the (empty) accumulator's matched count at zero, and the AND
characterization holds for document "A" on the one-word query. -/
theorem modeFilter_amended_witness :
    matchedOf (accumulateTerm qEnv zeroScore 1 [] ⟨"shot", 1, 2 / 5⟩) "A" ≤
      matchedOf [] "A" ∧
    ("A" ∈ semanticSearchDocs qEnv zeroScore ["covid"] QueryMode.andMode ↔
      ∃ e ∈ accumulate qEnv zeroScore 1 (expandQuery qEnv ["covid"]),
        1 ≤ e.2.matchedTerms ∧ e.2.docId = "A") :=
  ⟨(modeFilter_amended qEnv zeroScore ["covid"]).2.2 ⟨"shot", 1, 2 / 5⟩ []
      "A" (by norm_num),
    (modeFilter_amended qEnv zeroScore ["covid"]).1 "A"⟩

/-- C5: over any fixed serving state and scoring function, the document
set returned in AND mode is a subset of the set returned in OR mode. -/
theorem and_subset_or (env : SearchEnv) (sc : ℕ → ℕ → ℚ)
    (qw : List String) (d : String)
    (hd : d ∈ semanticSearchDocs env sc qw QueryMode.andMode) :
    d ∈ semanticSearchDocs env sc qw QueryMode.orMode := by
  rw [mem_semanticSearchDocs] at hd ⊢
  obtain ⟨e, hem, hreq, hdoc⟩ := hd
  cases qw with
  | nil => exact absurd hem (by simp [accumulate, expandQuery])
  | cons w ws =>
    refine ⟨e, hem, ?_, hdoc⟩
    simp only [requiredTerms, List.length_cons] at hreq ⊢
    omega

/-- Witness for C5: document "A" is returned in AND mode for the one-word
query "covid" on `qEnv`, hence also in OR mode. -/
theorem and_subset_or_witness :
    "A" ∈ semanticSearchDocs qEnv zeroScore ["covid"] QueryMode.orMode :=
  and_subset_or qEnv zeroScore ["covid"] "A" (by decide)

/-- C9: per-term failures never abort a query.  First, a lemma whose merged
posting lookup fails is treated exactly as an empty posting source: the
full filtered record list is unchanged when the failing lookup is replaced
by an empty posting list.  Second, a query word absent from the lexicon
(and without semantic neighbours) is skipped and scoring proceeds with the
remaining terms: the OR-mode document list equals that of the query with
the word removed. -/
theorem per_term_failure_isolated :
    (∀ (env : SearchEnv) (sc : ℕ → ℕ → ℚ) (qw : List String)
        (mode : QueryMode) (L : Int) (d0 : ℕ),
      env.findPostings L = none →
      semanticSearchRecords (overridePostings env L d0) sc qw mode =
        semanticSearchRecords env sc qw mode) ∧
    (∀ (env : SearchEnv) (sc : ℕ → ℕ → ℚ) (ws1 ws2 : List String)
        (w : String),
      env.lexicon w = none → env.similar w = [] →
      semanticSearchDocs env sc (ws1 ++ w :: ws2) QueryMode.orMode =
        semanticSearchDocs env sc (ws1 ++ ws2) QueryMode.orMode) := by
  constructor
  · exact fun env sc qw mode L d0 hL =>
      semanticSearchRecords_update_postings env sc qw mode L d0 hL
  · intro env sc ws1 ws2 w hl hs
    rw [semanticSearchDocs_eq_filter, semanticSearchDocs_eq_filter,
      expandQuery_skip env ws1 ws2 w hl hs]
    exact docs_of_proj (requiredTerms QueryMode.orMode (ws1 ++ w :: ws2).length)
      _ _
      (accumulate_proj env sc (ws1 ++ w :: ws2).length (ws1 ++ ws2).length
        (expandQuery env (ws1 ++ ws2)) [] [] rfl)

/-- Witness for C9: on `qEnv`, lemma 99 has no postings and replacing that
failure by an empty posting source changes nothing; and adding the unknown
word "zzz" to the query "covid" leaves the OR-mode results unchanged. -/
theorem per_term_failure_isolated_witness :
    (semanticSearchRecords (overridePostings qEnv 99 5) zeroScore ["covid"]
        QueryMode.orMode =
      semanticSearchRecords qEnv zeroScore ["covid"] QueryMode.orMode) ∧
    (semanticSearchDocs qEnv zeroScore (["covid"] ++ "zzz" :: [])
        QueryMode.orMode =
      semanticSearchDocs qEnv zeroScore (["covid"] ++ []) QueryMode.orMode) :=
  ⟨per_term_failure_isolated.1 qEnv zeroScore ["covid"] QueryMode.orMode 99 5
      (by decide),
   per_term_failure_isolated.2 qEnv zeroScore ["covid"] [] "zzz" (by decide)
      rfl⟩

/-- A three-word embedding vocabulary in map-traversal order: the query
word (index 0), then "b" (index 2), then "a" (index 1). -/
def tieVocab : List (String × ℕ) := [("q", 0), ("b", 2), ("a", 1)]

/-- An embedding store in which every vector is `[1]`, so all dot products
with the query vector are equal. -/
def oneVec : ℕ → List ℚ := fun _ => [1]

/-- C8 counterexample: "a" and "b" tie on similarity and "a" has the lower
vocabulary index (1 < 2), yet find-similar("q", 1) returns "b" — the
candidate encountered first in map-traversal order — so the claimed
lower-vocabulary-index tie-break does not hold. -/
theorem findSimilarWords_tie_counterexample :
    dot (oneVec 0) (oneVec 1) = dot (oneVec 0) (oneVec 2) ∧
    (1 : ℕ) < 2 ∧
    findSimilarWords tieVocab oneVec (fun _ => none) (fun _ => none) "q" 1 =
      [⟨"b", 1, -1⟩] := by
  refine ⟨rfl, by norm_num, ?_⟩
  have hdot : dot (oneVec 0) (oneVec 1) = 1 := by
    norm_num [dot, oneVec]
  norm_num [findSimilarWords, tieVocab, simCandidates, heapStep,
    List.orderedInsert, similarLemmaId, hdot, show ∀ i : ℕ, oneVec i = [1]
      from fun i => rfl, show dot [1] [1] = 1 from by norm_num [dot]]
  decide

/-- C8 (amended): find-similar(word, k) computes the dot product against
every stored vector and returns `min k |candidates|` words such that every
candidate not returned has similarity at most every returned similarity
(the k highest up to ties); the output is sorted by descending
(similarity, word); ties at the selection boundary are resolved by the
vocabulary map's traversal order (first encountered wins), not by the
lower vocabulary index. -/
theorem findSimilarWords_amended (vocab : List (String × ℕ))
    (emb : ℕ → List ℚ) (w2id : String → Option Int)
    (id2l : Int → Option Int) (word : String) (k : ℕ) (wp : String × ℕ)
    (hfind : vocab.find? (fun wi => wi.1 = word) = some wp) :
    (findSimilarWords vocab emb w2id id2l word k).length =
        min k (simCandidates vocab emb word (emb wp.2)).length ∧
    (∀ s ∈ findSimilarWords vocab emb w2id id2l word k,
      ((s.similarity, s.word) : ℚ × String) ∈
        simCandidates vocab emb word (emb wp.2)) ∧
    (∀ c ∈ simCandidates vocab emb word (emb wp.2),
      (∃ s ∈ findSimilarWords vocab emb w2id id2l word k,
        ((s.similarity, s.word) : ℚ × String) = c) ∨
      ∀ s ∈ findSimilarWords vocab emb w2id id2l word k,
        c.1 ≤ s.similarity) ∧
    ((findSimilarWords vocab emb w2id id2l word k).map
        (fun s => ((s.similarity, s.word) : ℚ × String))).Sorted
      (fun a b => simLe b a) := by
  have hinv := heapFold_inv k (simCandidates vocab emb word (emb wp.2)) [] []
    ⟨List.sorted_nil, by simp, by simp, by simp⟩
  obtain ⟨hs, hlen, hmem, hout⟩ := hinv
  simp only [List.nil_append] at hlen hmem hout
  have hres : findSimilarWords vocab emb w2id id2l word k =
      ((simCandidates vocab emb word (emb wp.2)).foldl
        (heapStep k) []).reverse.map
        (fun c => ⟨c.2, c.1, similarLemmaId w2id id2l c.2⟩) := by
    unfold findSimilarWords
    rw [hfind]
    rfl
  refine ⟨?_, ?_, ?_, ?_⟩
  · rw [hres]
    simp only [List.length_map, List.length_reverse]
    exact hlen
  · intro s hsm
    rw [hres] at hsm
    simp only [List.mem_map, List.mem_reverse] at hsm
    obtain ⟨c, hc, rfl⟩ := hsm
    exact hmem c hc
  · intro c hc
    by_cases hcp : c ∈ (simCandidates vocab emb word (emb wp.2)).foldl
        (heapStep k) []
    · refine Or.inl ⟨⟨c.2, c.1, similarLemmaId w2id id2l c.2⟩, ?_, rfl⟩
      rw [hres]
      simp only [List.mem_map, List.mem_reverse]
      exact ⟨c, hcp, rfl⟩
    · refine Or.inr ?_
      intro s hsm
      rw [hres] at hsm
      simp only [List.mem_map, List.mem_reverse] at hsm
      obtain ⟨c2, hc2, rfl⟩ := hsm
      exact (hout c hc hcp).2 c2 hc2
  · rw [hres, List.map_map]
    have hcomp : ((fun s : SimilarWord => ((s.similarity, s.word) : ℚ × String)) ∘
        (fun c : ℚ × String =>
          (⟨c.2, c.1, similarLemmaId w2id id2l c.2⟩ : SimilarWord))) = id := by
      funext c
      rfl
    rw [hcomp, List.map_id]
    exact List.pairwise_reverse.mpr hs

/-- Witness for C8 (amended) on `tieVocab` with k = 1: one word returned,
drawn from the candidates, every candidate at most the returned
similarity, sorted output. -/
theorem findSimilarWords_amended_witness :
    (findSimilarWords tieVocab oneVec (fun _ => none) (fun _ => none)
        "q" 1).length =
      min 1 (simCandidates tieVocab oneVec "q" (oneVec 0)).length ∧
    (∀ s ∈ findSimilarWords tieVocab oneVec (fun _ => none) (fun _ => none)
        "q" 1,
      ((s.similarity, s.word) : ℚ × String) ∈
        simCandidates tieVocab oneVec "q" (oneVec 0)) ∧
    (∀ c ∈ simCandidates tieVocab oneVec "q" (oneVec 0),
      (∃ s ∈ findSimilarWords tieVocab oneVec (fun _ => none)
          (fun _ => none) "q" 1,
        ((s.similarity, s.word) : ℚ × String) = c) ∨
      ∀ s ∈ findSimilarWords tieVocab oneVec (fun _ => none)
          (fun _ => none) "q" 1,
        c.1 ≤ s.similarity) ∧
    ((findSimilarWords tieVocab oneVec (fun _ => none) (fun _ => none)
        "q" 1).map
        (fun s => ((s.similarity, s.word) : ℚ × String))).Sorted
      (fun a b => simLe b a) :=
  findSimilarWords_amended tieVocab oneVec (fun _ => none) (fun _ => none)
    "q" 1 ("q", 0) (by decide)

end MiniGoogle
